import Mathlib

/-!
Verification of the packed Fenwick tree auction simulator.

Shallow embedding of the repository core:
- `PackedFenwickTree` (word codec, packed slot store, Fenwick update and
  prefix query, cold/warm access classification),
- `AuctionSimulator.findClearingPrice` (binary-search clearing),
- `FrontierAuction` (monotone frontier pointer with presence bitmap).

JavaScript `Map.get(k) || 0n` is modelled by total functions with default 0;
the cold/warm bookkeeping sets are `Finset ℕ`.  Unbounded source loops are
modelled with an explicit fuel argument; for every loop except the frontier
eviction loop the chosen fuel strictly dominates the iteration count of the
source loop (each fuel step consumes at least one source iteration and the
sources iterate boundedly many times), so the fuel-exhaustion branch is
unreachable.  The frontier eviction loop can genuinely diverge, so its
embedding returns `Option`.
-/

namespace TreeViz

/-! ### Word codec (PackedFenwickTree.packWord / unpackWord) -/

/-- `const UINT64_MAX = (1n << 64n) - 1n`. -/
def UINT64_MAX : ℕ := 2 ^ 64 - 1

/-- `const UINT64_BITS = 64n`. -/
def UINT64_BITS : ℕ := 64

/-- Pack 4 uint64 values into a uint256.  For `i = 0..3`,
`packed |= (values[i] & UINT64_MAX) << (i * UINT64_BITS)`; a missing entry
(`values[i] || 0n`) is 0, as is a stored `0n`, so `getD i 0` models both. -/
def packWord (values : List ℕ) : ℕ :=
  (List.range 4).foldl
    (fun packed i => packed ||| ((values.getD i 0 &&& UINT64_MAX) <<< (i * UINT64_BITS))) 0

/-- Unpack a uint256 into 4 uint64 values:
`values[i] = (packed >> (i * UINT64_BITS)) & UINT64_MAX`. -/
def unpackWord (packed : ℕ) : List ℕ :=
  (List.range 4).map (fun i => (packed >>> (i * UINT64_BITS)) &&& UINT64_MAX)

/-! ### Packed slot store (PackedFenwickTree state, getValue / setValue / beginTx)

`tree` is the `Map<number, uint256>` with `get(w) || 0n` modelled as a total
function defaulting to 0 (an absent word and a stored all-zero word are
indistinguishable to every reader).  `accessedWords` and `dirtyWords` are the
two classification sets. -/

structure PFTState where
  tree : ℕ → ℕ
  accessedWords : Finset ℕ
  dirtyWords : Finset ℕ

def initState : PFTState := ⟨fun _ => 0, ∅, ∅⟩

structure GetResult where
  value : ℕ
  wordIndex : ℕ
  isCold : Bool
  state : PFTState

/-- `getValue(tick)`: word index `tick / 4`, lane `tick % 4`; cold iff the
word was never read; the word is added to `accessedWords`. -/
def getValue (s : PFTState) (tick : ℕ) : GetResult :=
  let wordIndex := tick / 4
  let position := tick % 4
  let packed := s.tree wordIndex
  { value := (unpackWord packed).getD position 0
    wordIndex := wordIndex
    isCold := decide (wordIndex ∉ s.accessedWords)
    state := { s with accessedWords := insert wordIndex s.accessedWords } }

structure SetResult where
  wordIndex : ℕ
  isCold : Bool
  state : PFTState

/-- `setValue(tick, value)`: read-modify-write of one lane; cold iff the
word is not in `dirtyWords`; the word is added to `dirtyWords`. -/
def setValue (s : PFTState) (tick : ℕ) (value : ℕ) : SetResult :=
  let wordIndex := tick / 4
  let position := tick % 4
  let packed := s.tree wordIndex
  let values := (unpackWord packed).set position value
  let newPacked := packWord values
  { wordIndex := wordIndex
    isCold := decide (wordIndex ∉ s.dirtyWords)
    state :=
      { s with
          tree := Function.update s.tree wordIndex newPacked
          dirtyWords := insert wordIndex s.dirtyWords } }

/-- `beginTx()`: clears the write-dirty set only. -/
def beginTx (s : PFTState) : PFTState := { s with dirtyWords := ∅ }

/-! ### Fenwick update and query

`idx & -idx` on two's-complement integers equals `idx & ~(idx - 1)`, and for
any `x y` the bitwise identity `x & ~y = x & (x ^ y)` holds (on a bit of `x`
that is set, `x ^ y` is the negation of `y`; on a clear bit both sides are
0).  So `idx & -idx = idx & (idx ^ (idx - 1))`, which is the form used
here. -/

def lowBit (n : ℕ) : ℕ := n &&& (n ^^^ (n - 1))

/-! The Fenwick ascent relation: one step moves `idx` to `idx + (idx & -idx)`
(the parent in the update propagation).  `OnPath j p` says node `p` is
visited by an update starting at index `j`. -/

def fenStep (x y : ℕ) : Prop := y = x + lowBit x

def OnPath (j p : ℕ) : Prop := Relation.ReflTransGen fenStep j p

structure UpdateOp where
  tick : ℕ
  wordIndex : ℕ
  readCold : Bool
  writeCold : Bool

/-- One Fenwick propagation loop `while (idx <= maxTicks)`, fuelled.  The
loop body reads slot `idx - 1`, writes back `value + delta` (a JS BigInt,
truncated to its residue mod `2 ^ 64` by the 64-bit lane mask in `packWord`;
we take that residue before the then-idempotent mask), records one
operation, and moves to the parent `idx += idx & -idx`.  The `1 ≤ idx`
conjunct is only fuel hygiene: `update` always starts from `tick + 1 ≥ 1`
and `idx` increases. -/
def updateAux (maxTicks : ℕ) (delta : ℤ) : ℕ → ℕ → PFTState → PFTState × List UpdateOp
  | 0, _, s => (s, [])
  | fuel + 1, idx, s =>
    if 1 ≤ idx ∧ idx ≤ maxTicks then
      let r := getValue s (idx - 1)
      let w := setValue r.state (idx - 1) (((r.value : ℤ) + delta).emod (2 ^ 64)).toNat
      let rest := updateAux maxTicks delta fuel (idx + lowBit idx) w.state
      (rest.1, ⟨idx - 1, r.wordIndex, r.isCold, w.isCold⟩ :: rest.2)
    else (s, [])

/-- `update(tick, delta)`: Fenwick propagation from `idx = tick + 1`.  The
loop runs at most `maxTicks` times (`idx` strictly increases), so fuel
`maxTicks + 1` is never exhausted. -/
def update (maxTicks : ℕ) (s : PFTState) (tick : ℕ) (delta : ℤ) :
    PFTState × List UpdateOp :=
  updateAux maxTicks delta (maxTicks + 1) (tick + 1) s

structure QueryOp where
  tick : ℕ
  wordIndex : ℕ
  isCold : Bool

structure QueryResult where
  sum : ℕ
  operations : List QueryOp
  state : PFTState

/-- One Fenwick prefix-sum loop `while (idx > 0)`, fuelled: read slot
`idx - 1`, accumulate, record one operation, `idx -= idx & -idx`. -/
def queryAux : ℕ → ℕ → PFTState → QueryResult
  | 0, _, s => ⟨0, [], s⟩
  | fuel + 1, idx, s =>
    if 0 < idx then
      let r := getValue s (idx - 1)
      let rest := queryAux fuel (idx - lowBit idx) r.state
      ⟨r.value + rest.sum, ⟨idx - 1, r.wordIndex, r.isCold⟩ :: rest.operations, rest.state⟩
    else ⟨0, [], s⟩

/-- `query(tick)`: prefix sum up to `tick` inclusive, from `idx = tick + 1`.
`idx` strictly decreases, so fuel `tick + 1` is never exhausted. -/
def query (s : PFTState) (tick : ℕ) : QueryResult := queryAux (tick + 1) (tick + 1) s

/-! ### Read-cold classification across arbitrary call sequences (C7) -/

/-- The public operations of the packed store consumed by the simulator. -/
inductive APIOp where
  | upd (tick : ℕ) (delta : ℤ)
  | qry (tick : ℕ)
  | tx

def runOp (maxTicks : ℕ) (s : PFTState) : APIOp → PFTState
  | .upd t d => (update maxTicks s t d).1
  | .qry t => (query s t).state
  | .tx => beginTx s

def run (maxTicks : ℕ) (ops : List APIOp) (s : PFTState) : PFTState :=
  ops.foldl (runOp maxTicks) s

/-! ### Fenwick correctness (C1)

`slotVal s t` is the logical 64-bit slot stored for tick `t` (the value
`readSlot`/`getValue` returns).  The Fenwick invariant `INV` says each node
`p` (1-based) stores, mod `2 ^ 64`, the sum of the logical deltas of the
positions in `(p - (p & -p), p]`. -/

def slotVal (s : PFTState) (tick : ℕ) : ℕ :=
  (unpackWord (s.tree (tick / 4))).getD (tick % 4) 0

def applyUpdates (maxTicks : ℕ) (l : List (ℕ × ℤ)) (s : PFTState) : PFTState :=
  l.foldl (fun s u => (update maxTicks s u.1 u.2).1) s

def deltaFun (l : List (ℕ × ℤ)) : ℕ → ZMod (2 ^ 64) := fun q =>
  ((l.filter (fun u => u.1 + 1 = q)).map (fun u => (u.2 : ZMod (2 ^ 64)))).sum

def INV (maxTicks : ℕ) (s : PFTState) (f : ℕ → ZMod (2 ^ 64)) : Prop :=
  ∀ p, 1 ≤ p → p ≤ maxTicks →
    ((slotVal s (p - 1) : ℕ) : ZMod (2 ^ 64)) = ∑ q ∈ Finset.Ioc (p - lowBit p) p, f q

/-! ### Binary-search clearing (AuctionSimulator.findClearingPrice) -/

structure ClearingResult where
  clearingPrice : ℤ
  queryOps : List QueryOp
  state : PFTState

/-- The `while (low <= high)` binary search, fuelled.  `mid = 0` only
advances `low`; otherwise the operations of `query(mid - 1)` are appended
and the branch on `volumeFromTop = totalVolume - query(mid - 1).sum`
(computed on JS BigInts, hence over ℤ) either records `mid` as candidate
and searches higher, or searches lower. -/
def fcpLoop (targetVolume totalVolume : ℕ) :
    ℕ → ℕ → ℕ → ℕ → List QueryOp → PFTState → ℕ × List QueryOp × PFTState
  | 0, _, _, cp, ops, s => (cp, ops, s)
  | fuel + 1, low, high, cp, ops, s =>
    if low ≤ high then
      let mid := (low + high) / 2
      if mid = 0 then
        fcpLoop targetVolume totalVolume fuel (mid + 1) high cp ops s
      else
        let r := query s (mid - 1)
        let ops2 := ops ++ r.operations
        let volumeFromTop : ℤ := (totalVolume : ℤ) - (r.sum : ℤ)
        if (targetVolume : ℤ) ≤ volumeFromTop then
          fcpLoop targetVolume totalVolume fuel (mid + 1) high mid ops2 r.state
        else
          fcpLoop targetVolume totalVolume fuel low (mid - 1) cp ops2 r.state
    else (cp, ops, s)

/-- `findClearingPrice(targetVolume)`: query the total volume, fail with the
sentinel `-1` and an empty operation list if it is below the target,
otherwise binary-search `low = 0, high = maxTicks`.  The loop shrinks
`high + 1 - low` every iteration, so fuel `maxTicks + 2` is never
exhausted. -/
def findClearingPrice (maxTicks : ℕ) (s : PFTState) (targetVolume : ℕ) : ClearingResult :=
  let totalResult := query s (maxTicks - 1)
  let totalVolume := totalResult.sum
  if totalVolume < targetVolume then
    { clearingPrice := -1, queryOps := [], state := totalResult.state }
  else
    let r := fcpLoop targetVolume totalVolume (maxTicks + 2) 0 maxTicks 0
      totalResult.operations totalResult.state
    { clearingPrice := (r.1 : ℤ), queryOps := r.2.1, state := r.2.2 }

/-- The volume at or above tick `p` for a volume assignment `v` supported on
`[0, maxTicks)`. -/
def volumeAbove (v : ℕ → ℕ) (maxTicks p : ℕ) : ℕ := ∑ t ∈ Finset.Ico p maxTicks, v t

/-! ### Monotone Frontier Auction (FrontierAuction in src/src/gas-profiler.ts)

`volume` and `blockBits` are the two `Map`s with `get(k) || 0n` as total
functions (deleting an entry and storing 0 are indistinguishable to every
reader; presence only prices gas, which no claim here inspects).  The mask
operations use the bitwise identity `x & ~y = x & (x ^ y)`:
`mask & -mask = mask & ~(mask - 1)` is `lowBit`,
`mask & (~0n << k) = mask & ~(2^k - 1)` is `maskFrom`, and
`mask & ~(1n << p)` is `clearBit`. -/

structure FrontierState where
  volume : ℕ → ℤ
  blockBits : ℕ → ℕ
  Pstar : ℕ
  Vstar : ℤ

/-- `const SALE_SUPPLY = 1000n` (the fixed external capacity). -/
def SALE_SUPPLY : ℤ := 1000

def initFrontier : FrontierState := ⟨fun _ => 0, fun _ => 0, 0, 0⟩

/-- `countTrailingZeros`: `while ((n & 1n) === 0n) { n >>= 1n; count++ }`,
fuelled (`n` halves each iteration, so fuel `n` suffices for the `n ≠ 0`
call sites). -/
def countTrailingZerosAux : ℕ → ℕ → ℕ
  | 0, _ => 0
  | fuel + 1, n => if n % 2 = 1 then 0 else countTrailingZerosAux fuel (n / 2) + 1

def countTrailingZeros (n : ℕ) : ℕ :=
  if n = 0 then 0 else countTrailingZerosAux n n

/-- `mask & (~0n << k)`: clear the low `k` bits. -/
def maskFrom (m k : ℕ) : ℕ := m &&& (m ^^^ (2 ^ k - 1))

/-- `mask & ~(1n << p)`: clear bit `p`. -/
def clearBit (m p : ℕ) : ℕ := m &&& (m ^^^ (1 <<< p))

/-- `findNextSetBit`: forward scan `while (blockIndex < maxTicks >> 8)`;
in the current block mask out the bits below the resume position, and on a
hit return `(blockIndex << 8) + countTrailingZeros(mask & -mask)`; with no
hit in any scanned block return `maxTicks`.  `blockIndex` increases each
iteration, so fuel `maxTicks >>> 8 + 1` is never exhausted (the exhaustion
value coincides with the no-hit exit value). -/
def findNextSetBitGo (maxTicks : ℕ) (bb : ℕ → ℕ) : ℕ → ℕ → ℕ → ℕ
  | 0, _, _ => maxTicks
  | fuel + 1, blockIndex, tickInBlock =>
    if blockIndex < maxTicks >>> 8 then
      let mask := maskFrom (bb blockIndex) tickInBlock
      if mask ≠ 0 then
        (blockIndex <<< 8) + countTrailingZeros (lowBit mask)
      else
        findNextSetBitGo maxTicks bb fuel (blockIndex + 1) 0
    else maxTicks

def findNextSetBit (maxTicks : ℕ) (bb : ℕ → ℕ) (startTick : ℕ) : ℕ :=
  findNextSetBitGo maxTicks bb (maxTicks >>> 8 + 1) (startTick >>> 8) (startTick &&& 255)

/-- One pass of the `while (Vstar > SALE_SUPPLY)` eviction body: remove
`volume[Pstar]` from `Vstar` and the map, clear the bit of `Pstar`, and
advance `Pstar` to `findNextSetBit(Pstar + 1)`. -/
def evictStep (maxTicks : ℕ) (s : FrontierState) : FrontierState :=
  let pstarVolume := s.volume s.Pstar
  let vol2 := Function.update s.volume s.Pstar 0
  let pstarBlock := s.Pstar >>> 8
  let pstarTickInBlock := s.Pstar &&& 255
  let bb2 := Function.update s.blockBits pstarBlock
    (clearBit (s.blockBits pstarBlock) pstarTickInBlock)
  { volume := vol2
    blockBits := bb2
    Pstar := findNextSetBit maxTicks bb2 (s.Pstar + 1)
    Vstar := s.Vstar - pstarVolume }

/-- The eviction loop, fuelled; this loop can genuinely diverge, so running
out of fuel yields `none`. -/
def evictLoop (supply : ℤ) (maxTicks : ℕ) : ℕ → FrontierState → Option FrontierState
  | 0, s => if s.Vstar ≤ supply then some s else none
  | fuel + 1, s =>
    if s.Vstar ≤ supply then some s
    else evictLoop supply maxTicks fuel (evictStep maxTicks s)

/-- `bid(tick, amount)`: add the amount to `volume[tick]` and `Vstar`, set
the presence bit (a no-op when already set), then run the eviction loop.
The returned summary carries the new `Pstar` and `Vstar`, which the
returned state holds; the gas tallies are not modelled (no claim reads
them). -/
def bid (supply : ℤ) (maxTicks : ℕ) (fuel : ℕ) (s : FrontierState) (tick : ℕ)
    (amount : ℤ) : Option FrontierState :=
  let oldVolume := s.volume tick
  let vol2 := Function.update s.volume tick (oldVolume + amount)
  let blockIndex := tick >>> 8
  let tickInBlock := tick &&& 255
  let oldMask := s.blockBits blockIndex
  let newMask := oldMask ||| (1 <<< tickInBlock)
  let bb2 :=
    if oldMask = newMask then s.blockBits else Function.update s.blockBits blockIndex newMask
  evictLoop supply maxTicks fuel
    { volume := vol2, blockBits := bb2, Pstar := s.Pstar, Vstar := s.Vstar + amount }

/-- The frontier states reachable from a fresh auction by returning `bid`
calls. -/
inductive Reach (supply : ℤ) (maxTicks : ℕ) : FrontierState → Prop where
  | init : Reach supply maxTicks initFrontier
  | bid (s s2 : FrontierState) (fuel tick : ℕ) (amount : ℤ) :
      Reach supply maxTicks s → bid supply maxTicks fuel s tick amount = some s2 →
      Reach supply maxTicks s2

def FrontierWf (maxTicks : ℕ) (s : FrontierState) : Prop :=
  s.Pstar ≤ maxTicks ∧ ∀ b, s.blockBits b < 2 ^ 256

/-- The sum of `volume[t]` over the ticks `t ≥ Pstar` of the tick space
(entries are only ever created at bid ticks, and a deleted entry reads as
0, so this is the sum over the ticks at or above the frontier present in
the map). -/
def volumeAboveFrontier (maxTicks : ℕ) (s : FrontierState) : ℤ :=
  ∑ t ∈ (Finset.range maxTicks).filter (fun t => s.Pstar ≤ t), s.volume t

def frontierAfterSmallBid : FrontierState :=
  { volume := Function.update (fun _ => 0) 3 7
    blockBits := Function.update (fun _ => 0) 0 8
    Pstar := 0
    Vstar := 7 }

/-- The state after a first `bid(9990, 600)` on a fresh auction with
`maxTicks = 10000` (tick 9990 lives in block 39, bit 6). -/
def frontierAfterFirstBid : FrontierState :=
  { volume := Function.update (fun _ => 0) 9990 600
    blockBits := Function.update (fun _ => 0) 39 64
    Pstar := 0
    Vstar := 600 }

/-- The state the second `bid(9991, 600)` hands to its eviction loop:
volumes at 9990 and 9991, bits 6 and 7 of block 39 set, `Vstar = 1200`. -/
def preStuck : FrontierState :=
  { volume := Function.update (Function.update (fun _ => 0) 9990 600) 9991 600
    blockBits := Function.update (Function.update (fun _ => 0) 39 64) 39 192
    Pstar := 0
    Vstar := 1200 }

/-! ### Theorems -/

theorem range_four : List.range 4 = [0, 1, 2, 3] := rfl

theorem or_mul_pow_of_lt {x : ℕ} (y k : ℕ) (hx : x < 2 ^ k) :
    x ||| y * 2 ^ k = x + y * 2 ^ k := by
  rw [Nat.or_comm, Nat.mul_comm y, ← Nat.mul_add_lt_is_or hx, Nat.mul_comm]
  omega

/-- The packed word in positional (base `2 ^ 64`) form. -/
theorem packWord_four (a b c d : ℕ) :
    packWord [a, b, c, d] =
      a % 2 ^ 64 + 2 ^ 64 * (b % 2 ^ 64) + 2 ^ 128 * (c % 2 ^ 64)
        + 2 ^ 192 * (d % 2 ^ 64) := by
  have hma : a % 2 ^ 64 < 2 ^ 64 := Nat.mod_lt _ (by norm_num)
  have hmb : b % 2 ^ 64 < 2 ^ 64 := Nat.mod_lt _ (by norm_num)
  have hmc : c % 2 ^ 64 < 2 ^ 64 := Nat.mod_lt _ (by norm_num)
  simp only [packWord, range_four, List.foldl, List.getD, List.get?,
    Option.getD_some, UINT64_MAX, UINT64_BITS,
    Nat.and_pow_two_sub_one_eq_mod, Nat.shiftLeft_eq, Nat.zero_mul, Nat.one_mul,
    Nat.pow_zero, Nat.mul_one, Nat.zero_or]
  rw [or_mul_pow_of_lt _ _ hma]
  rw [show (2 : ℕ) ^ (2 * 64) = 2 ^ 128 by norm_num,
      show (2 : ℕ) ^ (3 * 64) = 2 ^ 192 by norm_num]
  rw [or_mul_pow_of_lt (k := 128)]
  · rw [or_mul_pow_of_lt (k := 192)]
    · ring
    · have : (2 : ℕ) ^ 128 = 2 ^ 64 * 2 ^ 64 := by norm_num
      nlinarith [hma, hmb, hmc]
  · have : (2 : ℕ) ^ 128 = 2 ^ 64 * 2 ^ 64 := by norm_num
    nlinarith [hma, hmb]

/-- The four 64-bit lanes of a word, as divisions. -/
theorem unpackWord_four (w : ℕ) :
    unpackWord w =
      [w % 2 ^ 64, w / 2 ^ 64 % 2 ^ 64, w / 2 ^ 128 % 2 ^ 64, w / 2 ^ 192 % 2 ^ 64] := by
  simp only [unpackWord, range_four, List.map, UINT64_MAX, UINT64_BITS,
    Nat.and_pow_two_sub_one_eq_mod, Nat.shiftRight_eq_div_pow]
  norm_num

theorem unpack_pack (a b c d : ℕ) :
    unpackWord (packWord [a, b, c, d]) =
      [a % 2 ^ 64, b % 2 ^ 64, c % 2 ^ 64, d % 2 ^ 64] := by
  rw [packWord_four, unpackWord_four]
  have hma : a % 2 ^ 64 < 2 ^ 64 := Nat.mod_lt _ (by norm_num)
  have hmb : b % 2 ^ 64 < 2 ^ 64 := Nat.mod_lt _ (by norm_num)
  have hmc : c % 2 ^ 64 < 2 ^ 64 := Nat.mod_lt _ (by norm_num)
  have hmd : d % 2 ^ 64 < 2 ^ 64 := Nat.mod_lt _ (by norm_num)
  simp only [List.cons.injEq, and_true]
  norm_num at hma hmb hmc hmd ⊢
  refine ⟨by omega, by omega, by omega, by omega⟩

/-- C10: for every 4-tuple of unsigned 64-bit values, unpack is a left
inverse of pack: each lane is placed at bit offset `i * 64`, masked to 64
bits, and does not overflow into neighbouring lanes. -/
theorem unpackWord_packWord_roundtrip (a b c d : ℕ)
    (ha : a < 2 ^ 64) (hb : b < 2 ^ 64) (hc : c < 2 ^ 64) (hd : d < 2 ^ 64) :
    unpackWord (packWord [a, b, c, d]) = [a, b, c, d] := by
  rw [unpack_pack, Nat.mod_eq_of_lt ha, Nat.mod_eq_of_lt hb, Nat.mod_eq_of_lt hc,
    Nat.mod_eq_of_lt hd]

theorem unpackWord_packWord_roundtrip_witness :
    unpackWord (packWord [1, 2 ^ 64 - 1, 0, 12345]) = [1, 2 ^ 64 - 1, 0, 12345] :=
  unpackWord_packWord_roundtrip 1 (2 ^ 64 - 1) 0 12345 (by norm_num) (by norm_num)
    (by norm_num) (by norm_num)

/-- C8: after `beginTx()` the next write to a word that was dirty before the
call is cold again, and a write to a word already dirtied since the last
`beginTx()` is warm. -/
theorem writeColdResetsAtBeginTx (s : PFTState) (t t2 v v2 : ℕ)
    (_hdirty : t / 4 ∈ s.dirtyWords) (hsame : t2 / 4 = t / 4) :
    (setValue (beginTx s) t v).isCold = true ∧
    (setValue (setValue (beginTx s) t v).state t2 v2).isCold = false := by
  constructor
  · simp [setValue, beginTx]
  · simp [setValue, beginTx, hsame]

theorem writeColdResetsAtBeginTx_witness :
    0 / 4 ∈ (setValue initState 0 7).state.dirtyWords ∧ 2 / 4 = 0 / 4 ∧
    ((setValue (beginTx (setValue initState 0 7).state) 0 9).isCold = true ∧
      (setValue (setValue (beginTx (setValue initState 0 7).state) 0 9).state 2 5).isCold
        = false) :=
  ⟨by decide, by decide,
    writeColdResetsAtBeginTx (setValue initState 0 7).state 0 2 9 5 (by decide) (by decide)⟩

theorem lowBit_zero : lowBit 0 = 0 := by decide

theorem lowBit_two_mul (n : ℕ) : lowBit (2 * n) = 2 * lowBit n := by
  rcases Nat.eq_zero_or_pos n with h0 | hpos
  · subst h0; decide
  · apply Nat.eq_of_testBit_eq
    intro j
    have h1 : 2 * n - 1 = 2 * (n - 1) + 1 := by omega
    have hd1 : 2 * n / 2 = n := by omega
    have hd2 : (2 * (n - 1) + 1) / 2 = n - 1 := by omega
    have hd3 : 2 * (n &&& (n ^^^ (n - 1))) / 2 = n &&& (n ^^^ (n - 1)) := by omega
    cases j with
    | zero =>
      simp only [lowBit, Nat.testBit_and, Nat.testBit_zero, Nat.mul_mod_right]
      simp
    | succ j =>
      simp only [lowBit, h1, Nat.testBit_and, Nat.testBit_xor]
      simp only [Nat.testBit_add_one, hd1, hd2, hd3]
      simp only [Nat.testBit_and, Nat.testBit_xor]

theorem lowBit_two_mul_add_one (n : ℕ) : lowBit (2 * n + 1) = 1 := by
  apply Nat.eq_of_testBit_eq
  intro j
  have h1 : 2 * n + 1 - 1 = 2 * n := by omega
  have hd1 : (2 * n + 1) / 2 = n := by omega
  have hd2 : 2 * n / 2 = n := by omega
  cases j with
  | zero =>
    simp only [lowBit, h1, Nat.testBit_and, Nat.testBit_xor, Nat.testBit_zero,
      Nat.mul_add_mod, Nat.mul_mod_right]
    simp
    omega
  | succ j =>
    simp only [lowBit, h1, Nat.testBit_and, Nat.testBit_xor]
    simp only [Nat.testBit_add_one, hd1, hd2]
    simp

/-- Every positive number is an odd part times its lowest set bit. -/
theorem lowBit_spec : ∀ n, 0 < n → ∃ a q, n = 2 ^ a * (2 * q + 1) ∧ lowBit n = 2 ^ a := by
  intro n
  induction n using Nat.strong_induction_on with
  | _ n ih =>
    intro hn
    rcases Nat.even_or_odd n with ⟨m, hm⟩ | ⟨m, hm⟩
    · have hm2 : n = 2 * m := by omega
      have hmpos : 0 < m := by omega
      obtain ⟨a, q, h1, h2⟩ := ih m (by omega) hmpos
      refine ⟨a + 1, q, ?_, ?_⟩
      · rw [hm2, h1, pow_succ]; ring
      · rw [hm2, lowBit_two_mul, h2, pow_succ]; ring
    · refine ⟨0, m, by omega, ?_⟩
      rw [show n = 2 * m + 1 by omega, lowBit_two_mul_add_one]; norm_num

theorem lowBit_pos {n : ℕ} (hn : 0 < n) : 0 < lowBit n := by
  obtain ⟨a, q, _, h2⟩ := lowBit_spec n hn
  rw [h2]; positivity

theorem lowBit_le {n : ℕ} : lowBit n ≤ n := by
  rcases Nat.eq_zero_or_pos n with h0 | hpos
  · subst h0; simp [lowBit_zero]
  · obtain ⟨a, q, h1, h2⟩ := lowBit_spec n hpos
    rw [h2, h1]
    exact Nat.le_mul_of_pos_right _ (by omega)

theorem lowBit_dvd {n : ℕ} : lowBit n ∣ n := by
  rcases Nat.eq_zero_or_pos n with h0 | hpos
  · subst h0; simp [lowBit_zero]
  · obtain ⟨a, q, h1, h2⟩ := lowBit_spec n hpos
    rw [h2, h1]; exact Dvd.intro _ rfl

theorem pow_dvd_lowBit {n k : ℕ} (hn : 0 < n) (hdvd : 2 ^ k ∣ n) : 2 ^ k ∣ lowBit n := by
  obtain ⟨a, q, h1, h2⟩ := lowBit_spec n hn
  rw [h2]
  rcases le_or_lt k a with hka | hka
  · exact pow_dvd_pow 2 hka
  · exfalso
    have h3 : 2 ^ a * 2 ∣ 2 ^ a * (2 * q + 1) := by
      rw [← pow_succ]
      exact dvd_trans (pow_dvd_pow 2 (by omega)) (h1 ▸ hdvd)
    have h4 : 2 ∣ 2 * q + 1 := (Nat.mul_dvd_mul_iff_left (pow_pos (by norm_num : (0 : ℕ) < 2) a)).mp h3
    omega

theorem lowBit_eq_of_dvd {n b : ℕ} (hn : 0 < n) (h1 : 2 ^ b ∣ n)
    (h2 : ¬ 2 ^ (b + 1) ∣ n) : lowBit n = 2 ^ b := by
  obtain ⟨a, q, ha, hlb⟩ := lowBit_spec n hn
  rw [hlb]
  congr 1
  rcases lt_trichotomy a b with hab | hab | hab
  · exfalso
    have h3 : 2 ^ a * 2 ∣ 2 ^ a * (2 * q + 1) := by
      rw [← pow_succ]
      exact dvd_trans (pow_dvd_pow 2 (by omega)) (ha ▸ h1)
    have h4 : 2 ∣ 2 * q + 1 :=
      (Nat.mul_dvd_mul_iff_left (pow_pos (by norm_num : (0 : ℕ) < 2) a)).mp h3
    omega
  · exact hab
  · exfalso
    exact h2 (dvd_trans (pow_dvd_pow 2 (by omega)) (ha ▸ Dvd.intro _ rfl))

theorem onPath_le {j p : ℕ} (h : OnPath j p) : j ≤ p := by
  induction h with
  | refl => exact le_refl _
  | tail _ hstep ih => rw [hstep]; omega

theorem onPath_interval {j p : ℕ} (h : OnPath j p) (hj : 0 < j) :
    p - lowBit p < j ∧ j ≤ p := by
  induction h with
  | refl => exact ⟨by have := lowBit_pos hj; omega, le_refl _⟩
  | @tail b c hb hstep ih =>
    obtain ⟨ih1, ih2⟩ := ih
    have hbpos : 0 < b := lt_of_lt_of_le hj ih2
    obtain ⟨a, m, hbeq, hlb⟩ := lowBit_spec b hbpos
    have hc : c = b + 2 ^ a := by rw [hstep, hlb]
    have hcdvd : 2 ^ (a + 1) ∣ c := by
      rw [hc, hbeq, pow_succ]
      exact ⟨m + 1, by ring⟩
    have hcpos : 0 < c := by omega
    have h2a : 2 ^ (a + 1) ∣ lowBit c := pow_dvd_lowBit hcpos hcdvd
    have h2b : 2 ^ (a + 1) ≤ lowBit c := Nat.le_of_dvd (lowBit_pos hcpos) h2a
    have h2c : lowBit c ≤ c := lowBit_le
    have hps : (2 : ℕ) ^ (a + 1) = 2 * 2 ^ a := by rw [pow_succ]; ring
    have ih1b : b - 2 ^ a < j := by rwa [hlb] at ih1
    omega

theorem interval_onPath : ∀ d p j, p - j ≤ d → 0 < j → j ≤ p → p - lowBit p < j →
    OnPath j p := by
  intro d
  induction d with
  | zero =>
    intro p j hd _ hjp _
    have hpj : p = j := by omega
    rw [hpj]
    exact Relation.ReflTransGen.refl
  | succ d ih =>
    intro p j hd hj hjp hlow
    rcases eq_or_lt_of_le hjp with heq | hlt
    · rw [heq]
      exact Relation.ReflTransGen.refl
    · have hppos : 0 < p := by omega
      obtain ⟨a, m, hp, hlbp⟩ := lowBit_spec p hppos
      rw [hlbp] at hlow
      -- the part of p below its lowest set bit interval
      have hsplit : p = 2 ^ (a + 1) * m + 2 ^ a := by rw [hp, pow_succ]; ring
      have hr1 : 0 < j - (p - 2 ^ a) := by omega
      have hr2 : j - (p - 2 ^ a) < 2 ^ a := by omega
      set r := j - (p - 2 ^ a) with hrdef
      obtain ⟨b, u, hr, hlbr⟩ := lowBit_spec r hr1
      have hb_le_r : 2 ^ b ≤ r := by
        rw [hr]; exact Nat.le_mul_of_pos_right _ (by omega)
      have hba : b < a := by
        have : (2 : ℕ) ^ b < 2 ^ a := lt_of_le_of_lt hb_le_r hr2
        exact (Nat.pow_lt_pow_iff_right (by norm_num)).mp this
      -- j = (p - 2 ^ a) + r, and p - 2 ^ a is divisible by 2 ^ (a + 1)
      have hseq : p - 2 ^ a = 2 ^ (a + 1) * m := by omega
      have hjsum : j = 2 ^ (a + 1) * m + r := by omega
      have hlbj : lowBit j = 2 ^ b := by
        apply lowBit_eq_of_dvd (by omega)
        · rw [hjsum]
          exact Nat.dvd_add (dvd_mul_of_dvd_left (pow_dvd_pow 2 (by omega)) _)
            (hr ▸ Dvd.intro _ rfl)
        · intro hcon
          have hd1 : 2 ^ (b + 1) ∣ 2 ^ (a + 1) * m :=
            dvd_mul_of_dvd_left (pow_dvd_pow 2 (by omega)) _
          have hd2 : 2 ^ (b + 1) ∣ r := by
            have := Nat.dvd_sub' hcon hd1
            rwa [hjsum, Nat.add_sub_cancel_left] at this
          rw [hr] at hd2
          have h3 : 2 ^ b * 2 ∣ 2 ^ b * (2 * u + 1) := by rw [← pow_succ]; exact hd2
          have h4 : 2 ∣ 2 * u + 1 :=
            (Nat.mul_dvd_mul_iff_left (pow_pos (by norm_num : (0 : ℕ) < 2) b)).mp h3
          omega
      -- the next step stays inside the interval: r + 2 ^ b ≤ 2 ^ a
      have hstepin : r + 2 ^ b ≤ 2 ^ a := by
        have hpow : (2 : ℕ) ^ a = 2 ^ b * 2 ^ (a - b) := by
          rw [← pow_add]; congr 1; omega
        have hlt2 : 2 ^ b * (2 * u + 1) < 2 ^ b * 2 ^ (a - b) := by
          rw [← hpow, ← hr]; exact hr2
        have hlt3 : 2 * u + 1 < 2 ^ (a - b) := by
          exact Nat.lt_of_mul_lt_mul_left hlt2
        have hle : 2 ^ b * (2 * u + 2) ≤ 2 ^ b * 2 ^ (a - b) :=
          Nat.mul_le_mul_left _ (by omega)
        rw [← hpow] at hle
        have hq : 2 ^ b * (2 * u + 2) = 2 ^ b * (2 * u + 1) + 2 ^ b := by ring
        rw [hr]
        omega
      have hnextle : j + lowBit j ≤ p := by rw [hlbj]; omega
      have hnext : OnPath (j + lowBit j) p := by
        apply ih p (j + lowBit j)
        · have := lowBit_pos hj; omega
        · have := lowBit_pos hj; omega
        · exact hnextle
        · rw [hlbp]; have := lowBit_pos hj; omega
      exact Relation.ReflTransGen.head rfl hnext

theorem accessed_getValue (s : PFTState) (t : ℕ) :
    (getValue s t).state.accessedWords = insert (t / 4) s.accessedWords := rfl

theorem accessed_setValue (s : PFTState) (t v : ℕ) :
    (setValue s t v).state.accessedWords = s.accessedWords := rfl

theorem accessed_subset_updateAux (maxTicks : ℕ) (delta : ℤ) :
    ∀ fuel idx s, s.accessedWords ⊆ (updateAux maxTicks delta fuel idx s).1.accessedWords := by
  intro fuel
  induction fuel with
  | zero => intro idx s; exact Finset.Subset.refl _
  | succ n ih =>
    intro idx s
    rw [updateAux]
    by_cases h : 1 ≤ idx ∧ idx ≤ maxTicks
    · simp only [h, if_true]
      refine Finset.Subset.trans ?_ (ih _ _)
      rw [accessed_setValue, accessed_getValue]
      exact Finset.subset_insert _ _
    · simp only [h, if_false]
      exact Finset.Subset.refl _

theorem accessed_subset_queryAux :
    ∀ fuel idx s, s.accessedWords ⊆ (queryAux fuel idx s).state.accessedWords := by
  intro fuel
  induction fuel with
  | zero => intro idx s; exact Finset.Subset.refl _
  | succ n ih =>
    intro idx s
    rw [queryAux]
    by_cases h : 0 < idx
    · simp only [h, if_true]
      refine Finset.Subset.trans ?_ (ih _ _)
      rw [accessed_getValue]
      exact Finset.subset_insert _ _
    · simp only [h, if_false]
      exact Finset.Subset.refl _

theorem accessed_subset_runOp (maxTicks : ℕ) (s : PFTState) (op : APIOp) :
    s.accessedWords ⊆ (runOp maxTicks s op).accessedWords := by
  cases op with
  | upd t d => exact accessed_subset_updateAux maxTicks d _ _ s
  | qry t => exact accessed_subset_queryAux _ _ s
  | tx => exact Finset.Subset.refl _

theorem accessed_subset_run (maxTicks : ℕ) (ops : List APIOp) :
    ∀ s : PFTState, s.accessedWords ⊆ (run maxTicks ops s).accessedWords := by
  induction ops with
  | nil => intro s; exact Finset.Subset.refl _
  | cons op rest ih =>
    intro s
    exact Finset.Subset.trans (accessed_subset_runOp maxTicks s op) (ih _)

/-- C7: on a store with no prior reads (empty read-seen set) every first
read is cold, and once a word has been read, every later read of that word
— across any further sequence of update, query and beginTx calls — is
warm. -/
theorem readColdOnce (maxTicks t : ℕ) (s0 s : PFTState) (ops : List APIOp) (t2 : ℕ)
    (hnoreads : s0.accessedWords = ∅) (hsame : t2 / 4 = t / 4) :
    (getValue s0 t).isCold = true ∧
    (getValue (run maxTicks ops (getValue s t).state) t2).isCold = false := by
  constructor
  · simp [getValue, hnoreads]
  · have hmem : t / 4 ∈ (run maxTicks ops (getValue s t).state).accessedWords := by
      refine accessed_subset_run maxTicks ops _ ?_
      rw [accessed_getValue]
      exact Finset.mem_insert_self _ _
    simp only [getValue, decide_eq_false_iff_not, not_not]
    rw [hsame]
    exact hmem

theorem readColdOnce_witness :
    initState.accessedWords = ∅ ∧ 9 / 4 = 8 / 4 ∧
    ((getValue initState 8).isCold = true ∧
      (getValue (run 16 [.tx, .upd 3 5, .qry 11] (getValue initState 8).state) 9).isCold
        = false) :=
  ⟨rfl, by decide,
    readColdOnce 16 8 initState initState [.tx, .upd 3 5, .qry 11] 9 rfl (by decide)⟩

theorem slotVal_congr {s s2 : PFTState} (h : s2.tree = s.tree) (u : ℕ) :
    slotVal s2 u = slotVal s u := by
  rw [slotVal, slotVal, h]

theorem getValue_value (s : PFTState) (t : ℕ) : (getValue s t).value = slotVal s t := rfl

theorem getValue_tree (s : PFTState) (t : ℕ) : (getValue s t).state.tree = s.tree := rfl

theorem slot_set_get (w p q v : ℕ) (hp : p < 4) (hq : q < 4) :
    (unpackWord (packWord ((unpackWord w).set p v))).getD q 0 =
      if q = p then v % 2 ^ 64 else (unpackWord w).getD q 0 := by
  have hmm : ∀ x : ℕ, x % 2 ^ 64 % 2 ^ 64 = x % 2 ^ 64 := fun x => Nat.mod_mod_of_dvd x dvd_rfl
  rw [unpackWord_four w]
  interval_cases p <;> interval_cases q <;>
    simp [List.set, unpack_pack, hmm]

theorem slotVal_setValue (s : PFTState) (t v t2 : ℕ) :
    slotVal (setValue s t v).state t2 = if t2 = t then v % 2 ^ 64 else slotVal s t2 := by
  have h2 : t2 % 4 < 4 := Nat.mod_lt _ (by norm_num)
  have h1 : t % 4 < 4 := Nat.mod_lt _ (by norm_num)
  by_cases hw : t2 / 4 = t / 4
  · show (unpackWord (Function.update s.tree (t / 4) _ (t2 / 4))).getD (t2 % 4) 0 = _
    rw [hw, Function.update_same]
    rw [slot_set_get _ _ _ _ h1 h2]
    by_cases hl : t2 % 4 = t % 4
    · have heq : t2 = t := by omega
      simp [heq]
    · have hne : t2 ≠ t := by omega
      rw [if_neg hl, if_neg hne, slotVal, hw]
  · have hne : t2 ≠ t := by omega
    rw [if_neg hne]
    show (unpackWord (Function.update s.tree (t / 4) _ (t2 / 4))).getD (t2 % 4) 0 = _
    rw [Function.update_noteq hw, slotVal]

theorem slotVal_lt (s : PFTState) (t : ℕ) : slotVal s t < 2 ^ 64 := by
  have h4 : t % 4 < 4 := Nat.mod_lt _ (by norm_num)
  rw [slotVal, unpackWord_four]
  rcases (by omega : t % 4 = 0 ∨ t % 4 = 1 ∨ t % 4 = 2 ∨ t % 4 = 3) with h | h | h | h <;>
    simp [h] <;> exact Nat.mod_lt _ (by norm_num)

theorem slotVal_initState (u : ℕ) : slotVal initState u = 0 := by
  rw [slotVal]
  show (unpackWord 0).getD (u % 4) 0 = 0
  rw [unpackWord_four]
  rcases (by omega : u % 4 = 0 ∨ u % 4 = 1 ∨ u % 4 = 2 ∨ u % 4 = 3) with h | h | h | h <;>
    simp [h]

theorem toNat_emod_cast (x : ℤ) :
    (((x.emod (2 ^ 64)).toNat : ℕ) : ZMod (2 ^ 64)) = (x : ZMod (2 ^ 64)) := by
  have h0 : (0 : ℤ) ≤ x.emod (2 ^ 64) := Int.emod_nonneg x (by norm_num)
  have h1 : ((x.emod (2 ^ 64)).toNat : ℤ) = x.emod (2 ^ 64) := Int.toNat_of_nonneg h0
  have h2 : ((x % ((2 ^ 64 : ℕ) : ℤ) : ℤ) : ZMod (2 ^ 64)) = (x : ZMod (2 ^ 64)) :=
    ZMod.intCast_mod x (2 ^ 64)
  calc (((x.emod (2 ^ 64)).toNat : ℕ) : ZMod (2 ^ 64))
      = (((x.emod (2 ^ 64)).toNat : ℤ) : ZMod (2 ^ 64)) := by push_cast; rfl
    _ = ((x % ((2 ^ 64 : ℕ) : ℤ) : ℤ) : ZMod (2 ^ 64)) := by
        rw [h1]; norm_num; rfl
    _ = (x : ZMod (2 ^ 64)) := h2

theorem toNat_emod_lt (x : ℤ) : (x.emod (2 ^ 64)).toNat < 2 ^ 64 := by
  have h0 : (0 : ℤ) ≤ x.emod (2 ^ 64) := Int.emod_nonneg x (by norm_num)
  have h1 : x.emod (2 ^ 64) < 2 ^ 64 := Int.emod_lt_of_pos x (by norm_num)
  omega

/-- Effect of one Fenwick `update` propagation on every slot: the nodes on
the ascent path inside `[1, maxTicks]` gain `delta` (mod `2 ^ 64`), every
other slot is untouched. -/
theorem updateAux_slotVal (maxTicks : ℕ) (delta : ℤ) :
    ∀ fuel j s t2, 1 ≤ j → maxTicks + 1 ≤ fuel + j →
      ((OnPath j (t2 + 1) ∧ t2 + 1 ≤ maxTicks →
        ((slotVal (updateAux maxTicks delta fuel j s).1 t2 : ℕ) : ZMod (2 ^ 64)) =
          ((slotVal s t2 : ℕ) : ZMod (2 ^ 64)) + (delta : ZMod (2 ^ 64))) ∧
      (¬ (OnPath j (t2 + 1) ∧ t2 + 1 ≤ maxTicks) →
        slotVal (updateAux maxTicks delta fuel j s).1 t2 = slotVal s t2)) := by
  intro fuel
  induction fuel with
  | zero =>
    intro j s t2 hj hfuel
    constructor
    · rintro ⟨hpath, hle⟩
      exfalso
      have := onPath_le hpath
      omega
    · intro _
      rfl
  | succ fuel ih =>
    intro j s t2 hj hfuel
    by_cases hguard : 1 ≤ j ∧ j ≤ maxTicks
    · rw [updateAux, if_pos hguard]
      dsimp only
      set v := (((getValue s (j - 1)).value : ℤ) + delta).emod (2 ^ 64) |>.toNat with hv
      set s2 := (setValue (getValue s (j - 1)).state (j - 1) v).state with hs2
      have hs2slot : ∀ u, slotVal s2 u = if u = j - 1 then v % 2 ^ 64 else slotVal s u := by
        intro u
        rw [hs2, slotVal_setValue]
        by_cases hu : u = j - 1
        · simp [hu]
        · simp [hu, slotVal_congr (getValue_tree s (j - 1)) u]
      have hvlt : v < 2 ^ 64 := toNat_emod_lt _
      have hvcast : ((v : ℕ) : ZMod (2 ^ 64)) =
          ((slotVal s (j - 1) : ℕ) : ZMod (2 ^ 64)) + (delta : ZMod (2 ^ 64)) := by
        rw [hv, toNat_emod_cast]
        push_cast [getValue_value]
        ring
      have hlbj := lowBit_pos (show 0 < j by omega)
      have ihspec := ih (j + lowBit j) s2 t2 (by omega) (by omega)
      constructor
      · rintro ⟨hpath, hle⟩
        by_cases hjt : t2 + 1 = j
        · obtain ⟨-, ih2⟩ := ihspec
          rw [ih2 ?_]
          · rw [hs2slot, if_pos (by omega : t2 = j - 1), Nat.mod_eq_of_lt hvlt, hvcast,
              show j - 1 = t2 by omega]
          · rintro ⟨hp, -⟩
            have := onPath_le hp
            omega
        · have hpath1 : OnPath (j + lowBit j) (t2 + 1) := by
            rcases Relation.ReflTransGen.cases_head hpath with heq | ⟨c, hstep, hrest⟩
            · exact absurd heq.symm hjt
            · rw [show c = j + lowBit j from hstep] at hrest
              exact hrest
          obtain ⟨ih1, -⟩ := ihspec
          rw [ih1 ⟨hpath1, hle⟩, hs2slot, if_neg (by omega : ¬ t2 = j - 1)]
      · intro hnot
        have hnot1 : ¬ (OnPath (j + lowBit j) (t2 + 1) ∧ t2 + 1 ≤ maxTicks) := by
          rintro ⟨hp, hl⟩
          exact hnot ⟨Relation.ReflTransGen.head rfl hp, hl⟩
        have hne : ¬ t2 = j - 1 := by
          intro heq
          apply hnot
          refine ⟨?_, ?_⟩
          · rw [show t2 + 1 = j by omega]
            exact Relation.ReflTransGen.refl
          · omega
        obtain ⟨-, ih2⟩ := ihspec
        rw [ih2 hnot1, hs2slot, if_neg hne]
    · rw [updateAux, if_neg hguard]
      constructor
      · rintro ⟨hpath, hle⟩
        exfalso
        have := onPath_le hpath
        omega
      · intro _
        rfl

theorem INV_congr {maxTicks : ℕ} {s : PFTState} {f g : ℕ → ZMod (2 ^ 64)}
    (hfg : ∀ q, f q = g q) (h : INV maxTicks s f) : INV maxTicks s g := by
  intro p hp1 hp2
  rw [h p hp1 hp2]
  exact Finset.sum_congr rfl fun q _ => hfg q

theorem INV_initState (maxTicks : ℕ) : INV maxTicks initState (fun _ => 0) := by
  intro p _ _
  rw [slotVal_initState]
  simp

theorem INV_update (maxTicks : ℕ) (s : PFTState) (f : ℕ → ZMod (2 ^ 64)) (t : ℕ) (delta : ℤ)
    (hINV : INV maxTicks s f) (ht : t < maxTicks) :
    INV maxTicks (update maxTicks s t delta).1
      (fun q => f q + if t + 1 = q then (delta : ZMod (2 ^ 64)) else 0) := by
  intro p hp1 hpmT
  have hpp : p - 1 + 1 = p := by omega
  have hmain := updateAux_slotVal maxTicks delta (maxTicks + 1) (t + 1) s (p - 1)
    (by omega) (by omega)
  rw [hpp] at hmain
  rw [Finset.sum_add_distrib, Finset.sum_ite_eq _ (t + 1) (fun _ => (delta : ZMod (2 ^ 64)))]
  by_cases hmem : t + 1 ∈ Finset.Ioc (p - lowBit p) p
  · obtain ⟨hlow, hle⟩ := Finset.mem_Ioc.mp hmem
    have hpath : OnPath (t + 1) p :=
      interval_onPath p p (t + 1) (by omega) (by omega) hle hlow
    obtain ⟨h1, -⟩ := hmain
    rw [update, h1 ⟨hpath, hpmT⟩, hINV p hp1 hpmT, if_pos hmem]
  · have hnopath : ¬ (OnPath (t + 1) p ∧ p ≤ maxTicks) := by
      rintro ⟨hp, -⟩
      obtain ⟨hl1, hl2⟩ := onPath_interval hp (by omega)
      exact hmem (Finset.mem_Ioc.mpr ⟨hl1, hl2⟩)
    obtain ⟨-, h2⟩ := hmain
    rw [update, h2 hnopath, hINV p hp1 hpmT, if_neg hmem]
    simp

theorem queryAux_sum (maxTicks : ℕ) (f : ℕ → ZMod (2 ^ 64)) (s : PFTState)
    (hINV : INV maxTicks s f) :
    ∀ fuel idx s2, s2.tree = s.tree → idx ≤ fuel → idx ≤ maxTicks →
      (((queryAux fuel idx s2).sum : ℕ) : ZMod (2 ^ 64)) = ∑ q ∈ Finset.Ioc 0 idx, f q := by
  intro fuel
  induction fuel with
  | zero =>
    intro idx s2 htree hle hmt
    have h0 : idx = 0 := by omega
    subst h0
    simp [queryAux]
  | succ fuel ih =>
    intro idx s2 htree hle hmt
    rw [queryAux]
    by_cases hpos : 0 < idx
    · rw [if_pos hpos]
      dsimp only
      have hlbp := lowBit_pos hpos
      have hlble : lowBit idx ≤ idx := lowBit_le
      have hval : (getValue s2 (idx - 1)).value = slotVal s (idx - 1) := by
        rw [getValue_value, slotVal_congr htree]
      push_cast
      rw [hval, ih (idx - lowBit idx) (getValue s2 (idx - 1)).state
        (by rw [getValue_tree]; exact htree) (by omega) (by omega)]
      have hcast := hINV idx (by omega) hmt
      rw [hcast]
      rw [add_comm]
      have hdisj : Disjoint (Finset.Ioc 0 (idx - lowBit idx))
          (Finset.Ioc (idx - lowBit idx) idx) :=
        Finset.disjoint_left.mpr fun q hq1 hq2 => by
          rw [Finset.mem_Ioc] at hq1 hq2
          omega
      rw [← Finset.sum_union hdisj,
        Finset.Ioc_union_Ioc_eq_Ioc (by omega) (by omega)]
    · rw [if_neg hpos]
      have h0 : idx = 0 := by omega
      subst h0
      simp

theorem deltaFun_cons (u : ℕ × ℤ) (l : List (ℕ × ℤ)) (q : ℕ) :
    deltaFun (u :: l) q =
      (if u.1 + 1 = q then (u.2 : ZMod (2 ^ 64)) else 0) + deltaFun l q := by
  by_cases h : u.1 + 1 = q <;> simp [deltaFun, List.filter_cons, h]

theorem INV_applyUpdates (maxTicks : ℕ) :
    ∀ (l : List (ℕ × ℤ)) (s : PFTState) (f : ℕ → ZMod (2 ^ 64)),
      INV maxTicks s f → (∀ u ∈ l, u.1 < maxTicks) →
      INV maxTicks (applyUpdates maxTicks l s) (fun q => f q + deltaFun l q) := by
  intro l
  induction l with
  | nil =>
    intro s f hINV _
    refine INV_congr (fun q => ?_) hINV
    simp [deltaFun]
  | cons u l ih =>
    intro s f hINV hl
    have h1 := INV_update maxTicks s f u.1 u.2 hINV (hl u (by simp))
    have h2 := ih (update maxTicks s u.1 u.2).1 _ h1 (fun w hw => hl w (by simp [hw]))
    refine INV_congr (fun q => ?_) h2
    rw [deltaFun_cons]
    ring

theorem sum_deltaFun (t : ℕ) :
    ∀ l : List (ℕ × ℤ),
      ∑ q ∈ Finset.Ioc 0 (t + 1), deltaFun l q =
        ((l.filter (fun u => u.1 ≤ t)).map (fun u => (u.2 : ZMod (2 ^ 64)))).sum := by
  intro l
  induction l with
  | nil => simp [deltaFun]
  | cons u l ih =>
    have hsum : ∑ q ∈ Finset.Ioc 0 (t + 1), deltaFun (u :: l) q =
        (∑ q ∈ Finset.Ioc 0 (t + 1),
          (if u.1 + 1 = q then (u.2 : ZMod (2 ^ 64)) else 0)) +
          ∑ q ∈ Finset.Ioc 0 (t + 1), deltaFun l q := by
      rw [← Finset.sum_add_distrib]
      exact Finset.sum_congr rfl fun q _ => deltaFun_cons u l q
    rw [hsum, ih, Finset.sum_ite_eq _ (u.1 + 1) (fun _ => (u.2 : ZMod (2 ^ 64)))]
    by_cases hut : u.1 ≤ t
    · rw [if_pos (Finset.mem_Ioc.mpr (by omega))]
      simp [List.filter_cons, hut]
    · rw [if_neg (fun hmem => hut (by have := (Finset.mem_Ioc.mp hmem).2; omega))]
      simp [List.filter_cons, hut]

/-- C1: for every sequence of updates at ticks below `maxTicks` applied to a
fresh store, and every tick `t` below `maxTicks`, the prefix query at `t`
returns, modulo the `2 ^ 64` slot arithmetic, the sum of all deltas applied
at ticks `≤ t`. -/
theorem fenwickQueryCorrect (maxTicks : ℕ) (l : List (ℕ × ℤ))
    (hl : ∀ u ∈ l, u.1 < maxTicks) (t : ℕ) (ht : t < maxTicks) :
    (((query (applyUpdates maxTicks l initState) t).sum : ℕ) : ZMod (2 ^ 64)) =
      ((l.filter (fun u => u.1 ≤ t)).map (fun u => (u.2 : ZMod (2 ^ 64)))).sum := by
  have hINV := INV_applyUpdates maxTicks l initState (fun _ => 0) (INV_initState maxTicks) hl
  have hq := queryAux_sum maxTicks _ _ hINV (t + 1) (t + 1)
    (applyUpdates maxTicks l initState) rfl (le_refl _) (by omega)
  rw [query, hq, ← sum_deltaFun t l]
  exact Finset.sum_congr rfl fun q _ => by simp

theorem fenwickQueryCorrect_witness :
    (∀ u ∈ [((5 : ℕ), (10 : ℤ))], u.1 < 16) ∧ 5 < 16 ∧
    (((query (applyUpdates 16 [(5, 10)] initState) 5).sum : ℕ) : ZMod (2 ^ 64)) =
      (([((5 : ℕ), (10 : ℤ))].filter (fun u => u.1 ≤ 5)).map
        (fun u => (u.2 : ZMod (2 ^ 64)))).sum :=
  ⟨by decide, by decide, fenwickQueryCorrect 16 [(5, 10)] (by decide) 5 (by decide)⟩

/-- C9: a target strictly above the total volume yields the sentinel result:
clearing price `-1` and an empty operation list (the embedding is a total
function, so no exception is possible). -/
theorem insufficientVolumeSentinel (maxTicks : ℕ) (s : PFTState) (targetVolume : ℕ)
    (h : (query s (maxTicks - 1)).sum < targetVolume) :
    (findClearingPrice maxTicks s targetVolume).clearingPrice = -1 ∧
    (findClearingPrice maxTicks s targetVolume).queryOps = [] := by
  constructor <;> simp [findClearingPrice, h]

theorem insufficientVolumeSentinel_witness :
    (query (applyUpdates 8 [(2, 3)] initState) (8 - 1)).sum < 100 ∧
    ((findClearingPrice 8 (applyUpdates 8 [(2, 3)] initState) 100).clearingPrice = -1 ∧
      (findClearingPrice 8 (applyUpdates 8 [(2, 3)] initState) 100).queryOps = []) :=
  ⟨by decide, insufficientVolumeSentinel 8 (applyUpdates 8 [(2, 3)] initState) 100 (by decide)⟩

theorem queryAux_state_tree : ∀ fuel idx s, (queryAux fuel idx s).state.tree = s.tree := by
  intro fuel
  induction fuel with
  | zero => intro idx s; rfl
  | succ fuel ih =>
    intro idx s
    rw [queryAux]
    by_cases h : 0 < idx
    · rw [if_pos h]
      exact ih _ _
    · rw [if_neg h]

theorem queryAux_sum_eq_of_tree : ∀ fuel idx (s1 s2 : PFTState), s1.tree = s2.tree →
    (queryAux fuel idx s1).sum = (queryAux fuel idx s2).sum := by
  intro fuel
  induction fuel with
  | zero => intro idx s1 s2 _; rfl
  | succ fuel ih =>
    intro idx s1 s2 h
    rw [queryAux, queryAux]
    by_cases hpos : 0 < idx
    · rw [if_pos hpos, if_pos hpos]
      dsimp only
      rw [getValue_value, getValue_value, slotVal_congr h,
        ih _ (getValue s1 (idx - 1)).state (getValue s2 (idx - 1)).state
          (by rw [getValue_tree, getValue_tree, h])]
    · rw [if_neg hpos, if_neg hpos]

theorem volumeAbove_antitone (v : ℕ → ℕ) (maxTicks : ℕ) {p q : ℕ} (h : p ≤ q) :
    volumeAbove v maxTicks q ≤ volumeAbove v maxTicks p :=
  Finset.sum_le_sum_of_subset (Finset.Ico_subset_Ico h (le_refl _))

/-- The binary-search loop invariant: the candidate satisfies the target,
everything from `high + 1` up does not, and at exit the candidate is tight. -/
theorem fcpLoop_correct (maxTicks : ℕ) (v : ℕ → ℕ) (s0 : PFTState) (V T : ℕ)
    (hexact : ∀ t, t < maxTicks → (query s0 t).sum = ∑ q ∈ Finset.range (t + 1), v q)
    (hT : T = ∑ t ∈ Finset.range maxTicks, v t) :
    ∀ fuel low high cp ops s, s.tree = s0.tree →
      high ≤ maxTicks → low ≤ high + 1 → high + 2 - low ≤ fuel → low ≤ cp + 1 →
      V ≤ volumeAbove v maxTicks cp → ¬ V ≤ volumeAbove v maxTicks (high + 1) →
      (V ≤ volumeAbove v maxTicks (fcpLoop V T fuel low high cp ops s).1 ∧
        ¬ V ≤ volumeAbove v maxTicks ((fcpLoop V T fuel low high cp ops s).1 + 1)) := by
  intro fuel
  induction fuel with
  | zero =>
    intro low high cp ops s _ _ hlh hfuel _ _ _
    omega
  | succ fuel ih =>
    intro low high cp ops s htree hhigh hlh hfuel hlcp hcp hhigh1
    rw [fcpLoop]
    by_cases hcond : low ≤ high
    · rw [if_pos hcond]
      dsimp only
      set mid := (low + high) / 2 with hmid
      have hmid_le : mid ≤ high := by omega
      have hmid_ge : low ≤ mid := by omega
      by_cases hz : mid = 0
      · rw [if_pos hz]
        exact ih (mid + 1) high cp ops s htree hhigh (by omega) (by omega) (by omega)
          hcp hhigh1
      · rw [if_neg hz]
        -- the probe value is the exact volume at or above mid
        have hsum : (query s (mid - 1)).sum = ∑ q ∈ Finset.range mid, v q := by
          rw [query, queryAux_sum_eq_of_tree (mid - 1 + 1) (mid - 1 + 1) s s0 htree]
          rw [← query]
          rw [hexact (mid - 1) (by omega), show mid - 1 + 1 = mid by omega]
        have hsplit : (∑ q ∈ Finset.range mid, v q) + volumeAbove v maxTicks mid = T := by
          rw [hT, volumeAbove, Finset.range_eq_Ico]
          exact Finset.sum_Ico_consecutive v (by omega) (by omega)
        have hiff : ((V : ℤ) ≤ (T : ℤ) - ((query s (mid - 1)).sum : ℤ)) ↔
            V ≤ volumeAbove v maxTicks mid := by
          rw [hsum]
          constructor <;> intro h <;> [exact_mod_cast (by omega :
            (V : ℤ) ≤ (volumeAbove v maxTicks mid : ℤ)); omega]
        by_cases hpred : V ≤ volumeAbove v maxTicks mid
        · rw [if_pos (hiff.mpr hpred)]
          exact ih (mid + 1) high mid _ (query s (mid - 1)).state
            (by rw [query, queryAux_state_tree]; exact htree) hhigh (by omega) (by omega)
            (by omega) hpred hhigh1
        · rw [if_neg (fun hc => hpred (hiff.mp hc))]
          exact ih low (mid - 1) cp _ (query s (mid - 1)).state
            (by rw [query, queryAux_state_tree]; exact htree) (by omega) (by omega)
            (by omega) hlcp hcp (by rw [show mid - 1 + 1 = mid by omega]; exact hpred)
    · rw [if_neg hcond]
      refine ⟨hcp, fun hc => hhigh1 ?_⟩
      exact le_trans hc (volumeAbove_antitone v maxTicks (by omega))

/-- C2 (amended with `1 ≤ V`): for a tree storing the volume assignment `v`
and a target `1 ≤ V ≤ T`, the returned clearing price `p` satisfies
`volumeAbove p ≥ V` and `volumeAbove (p + 1) < V`. -/
theorem clearingPriceTight (maxTicks : ℕ) (v : ℕ → ℕ) (s : PFTState)
    (hexact : ∀ t, t < maxTicks → (query s t).sum = ∑ q ∈ Finset.range (t + 1), v q)
    (V : ℕ) (hV1 : 1 ≤ V) (hVT : V ≤ ∑ t ∈ Finset.range maxTicks, v t) :
    ∃ p : ℕ, (findClearingPrice maxTicks s V).clearingPrice = (p : ℤ) ∧
      V ≤ volumeAbove v maxTicks p ∧ volumeAbove v maxTicks (p + 1) < V := by
  have hmT : 1 ≤ maxTicks := by
    by_contra hc
    rw [show maxTicks = 0 by omega] at hVT
    simp at hVT
    omega
  have htot : (query s (maxTicks - 1)).sum = ∑ t ∈ Finset.range maxTicks, v t := by
    rw [hexact (maxTicks - 1) (by omega), show maxTicks - 1 + 1 = maxTicks by omega]
  have hnolt : ¬ (query s (maxTicks - 1)).sum < V := by omega
  have hloop := fcpLoop_correct maxTicks v s V ((query s (maxTicks - 1)).sum)
    (fun t ht => hexact t ht) htot (maxTicks + 2) 0 maxTicks 0
    (query s (maxTicks - 1)).operations (query s (maxTicks - 1)).state
    (by rw [query, queryAux_state_tree]) (le_refl _) (by omega) (by omega) (by omega)
    (by rw [volumeAbove, ← Finset.range_eq_Ico]; omega)
    (by
      rw [volumeAbove, Finset.Ico_eq_empty (by omega)]
      simp
      omega)
  refine ⟨(fcpLoop V ((query s (maxTicks - 1)).sum) (maxTicks + 2) 0 maxTicks 0
    (query s (maxTicks - 1)).operations (query s (maxTicks - 1)).state).1, ?_, hloop.1, ?_⟩
  · simp only [findClearingPrice, if_neg hnolt]
  · omega

theorem clearingPriceTight_witness :
    (∀ t, t < 4 → (query (applyUpdates 4 [(1, 5)] initState) t).sum =
      ∑ q ∈ Finset.range (t + 1), (fun u => if u = 1 then 5 else 0) q) ∧
    1 ≤ 5 ∧ 5 ≤ ∑ t ∈ Finset.range 4, (fun u => if u = 1 then 5 else 0) t ∧
    ∃ p : ℕ,
      (findClearingPrice 4 (applyUpdates 4 [(1, 5)] initState) 5).clearingPrice = (p : ℤ) ∧
      5 ≤ volumeAbove (fun u => if u = 1 then 5 else 0) 4 p ∧
      volumeAbove (fun u => if u = 1 then 5 else 0) 4 (p + 1) < 5 :=
  ⟨by decide, by decide, by decide,
    clearingPriceTight 4 (fun u => if u = 1 then 5 else 0)
      (applyUpdates 4 [(1, 5)] initState) (by decide) 5 (by decide) (by decide)⟩

/-- C2 as frozen fails at target `V = 0`: the hypothesis `V ≤ T` admits
`V = 0`, but no price can satisfy `sum(v[t] for t ≥ p + 1) < 0` since
volumes are unsigned. -/
theorem clearingPriceTight_cex :
    ¬ ∃ p : ℕ,
      (findClearingPrice 4 (applyUpdates 4 [(1, 5)] initState) 0).clearingPrice = (p : ℤ) ∧
      0 ≤ volumeAbove (fun u => if u = 1 then 5 else 0) 4 p ∧
      volumeAbove (fun u => if u = 1 then 5 else 0) 4 (p + 1) < 0 := by
  rintro ⟨p, -, -, h3⟩
  omega

theorem countTrailingZerosAux_pow (b : ℕ) :
    ∀ fuel, b + 1 ≤ fuel → countTrailingZerosAux fuel (2 ^ b) = b := by
  induction b with
  | zero =>
    intro fuel hf
    cases fuel with
    | zero => omega
    | succ fuel => simp [countTrailingZerosAux]
  | succ b ih =>
    intro fuel hf
    cases fuel with
    | zero => omega
    | succ fuel =>
      have h2 : 2 ^ (b + 1) % 2 = 0 := by
        rw [pow_succ, Nat.mul_mod]
        simp
      have h3 : 2 ^ (b + 1) / 2 = 2 ^ b := by
        rw [pow_succ, Nat.mul_div_cancel _ (by norm_num)]
      rw [countTrailingZerosAux, if_neg (by omega), h3, ih fuel (by omega)]

theorem countTrailingZeros_pow (b : ℕ) : countTrailingZeros (2 ^ b) = b := by
  rw [countTrailingZeros, if_neg (pow_ne_zero b (by norm_num))]
  exact countTrailingZerosAux_pow b (2 ^ b) (Nat.lt_two_pow b)

theorem maskFrom_eq (m k : ℕ) : maskFrom m k = 2 ^ k * (m / 2 ^ k) := by
  apply Nat.eq_of_testBit_eq
  intro j
  rw [maskFrom]
  simp only [Nat.testBit_and, Nat.testBit_xor, Nat.testBit_two_pow_sub_one,
    Nat.testBit_mul_pow_two, ← Nat.shiftRight_eq_div_pow, Nat.testBit_shiftRight]
  by_cases hj : j < k
  · cases hm : m.testBit j <;> simp [hj, hm, Nat.not_le_of_lt hj]
  · have hkj : k + (j - k) = j := by omega
    cases hm : m.testBit j <;> simp [hj, hm, Nat.le_of_not_lt hj, hkj]

theorem maskFrom_le (m k : ℕ) : maskFrom m k ≤ m := Nat.and_le_left

theorem clearBit_le (m p : ℕ) : clearBit m p ≤ m := Nat.and_le_left

/-- The scan either reports exhaustion (`maxTicks`) or a tick at or after
its resume position and strictly inside the scanned blocks. -/
theorem findNextSetBitGo_bounds (maxTicks : ℕ) (bb : ℕ → ℕ)
    (hbb : ∀ b, bb b < 2 ^ 256) :
    ∀ fuel blockIndex tickInBlock, tickInBlock < 256 →
      (findNextSetBitGo maxTicks bb fuel blockIndex tickInBlock = maxTicks ∨
        (blockIndex * 256 + tickInBlock ≤
            findNextSetBitGo maxTicks bb fuel blockIndex tickInBlock ∧
          findNextSetBitGo maxTicks bb fuel blockIndex tickInBlock < maxTicks)) := by
  intro fuel
  induction fuel with
  | zero =>
    intro blockIndex tickInBlock _
    left
    rfl
  | succ fuel ih =>
    intro blockIndex tickInBlock htib
    rw [findNextSetBitGo]
    by_cases hbi : blockIndex < maxTicks >>> 8
    · rw [if_pos hbi]
      dsimp only
      by_cases hmask : maskFrom (bb blockIndex) tickInBlock ≠ 0
      · rw [if_pos hmask]
        right
        obtain ⟨a, q, hdecomp, hlb⟩ :=
          lowBit_spec (maskFrom (bb blockIndex) tickInBlock) (by omega)
        rw [hlb, countTrailingZeros_pow]
        have hdvd : 2 ^ tickInBlock ∣ maskFrom (bb blockIndex) tickInBlock := by
          rw [maskFrom_eq]
          exact Dvd.intro _ rfl
        have hdvd2 : 2 ^ tickInBlock ∣ 2 ^ a := by
          rw [← hlb]
          exact pow_dvd_lowBit (by omega) hdvd
        have hta : tickInBlock ≤ a :=
          (Nat.pow_dvd_pow_iff_le_right (by norm_num)).mp hdvd2
        have ha256 : a < 256 := by
          have h1 : 2 ^ a ≤ maskFrom (bb blockIndex) tickInBlock := by
            rw [← hlb]
            exact lowBit_le
          have h2 : maskFrom (bb blockIndex) tickInBlock ≤ bb blockIndex :=
            maskFrom_le _ _
          have h3 : (2 : ℕ) ^ a < 2 ^ 256 := by
            calc 2 ^ a ≤ bb blockIndex := le_trans h1 h2
              _ < 2 ^ 256 := hbb blockIndex
          exact (Nat.pow_lt_pow_iff_right (by norm_num)).mp h3
        have hshl : blockIndex <<< 8 = blockIndex * 256 := by
          rw [Nat.shiftLeft_eq]
        have hshr : maxTicks >>> 8 = maxTicks / 256 := by
          rw [Nat.shiftRight_eq_div_pow]
        rw [hshl]
        rw [hshr] at hbi
        have hmul : maxTicks / 256 * 256 ≤ maxTicks := Nat.div_mul_le_self _ _
        constructor
        · omega
        · omega
      · rw [if_neg hmask]
        rcases ih (blockIndex + 1) 0 (by norm_num) with h | ⟨h1, h2⟩
        · left
          exact h
        · right
          refine ⟨?_, h2⟩
          omega
    · rw [if_neg hbi]
      left
      rfl

theorem findNextSetBit_bounds (maxTicks : ℕ) (bb : ℕ → ℕ) (hbb : ∀ b, bb b < 2 ^ 256)
    (start : ℕ) :
    findNextSetBit maxTicks bb start = maxTicks ∨
      (start ≤ findNextSetBit maxTicks bb start ∧
        findNextSetBit maxTicks bb start < maxTicks) := by
  have h255 : start &&& 255 = start % 256 := by
    rw [show (255 : ℕ) = 2 ^ 8 - 1 by norm_num, Nat.and_pow_two_sub_one_eq_mod]
  have hsr : start >>> 8 = start / 256 := by
    rw [Nat.shiftRight_eq_div_pow]
  have hdec : (start >>> 8) * 256 + (start &&& 255) = start := by
    rw [h255, hsr]
    omega
  rcases findNextSetBitGo_bounds maxTicks bb hbb (maxTicks >>> 8 + 1) (start >>> 8)
    (start &&& 255) (by rw [h255]; omega) with h | ⟨h1, h2⟩
  · left
    rw [findNextSetBit]
    exact h
  · right
    rw [findNextSetBit]
    omega

theorem evictStep_wf (maxTicks : ℕ) (s : FrontierState) (hwf : FrontierWf maxTicks s) :
    FrontierWf maxTicks (evictStep maxTicks s) ∧ s.Pstar ≤ (evictStep maxTicks s).Pstar := by
  obtain ⟨hP, hbb⟩ := hwf
  have hbb2 : ∀ b, (Function.update s.blockBits (s.Pstar >>> 8)
      (clearBit (s.blockBits (s.Pstar >>> 8)) (s.Pstar &&& 255))) b < 2 ^ 256 := by
    intro b
    by_cases hb : b = s.Pstar >>> 8
    · rw [hb, Function.update_same]
      exact lt_of_le_of_lt (clearBit_le _ _) (hbb _)
    · rw [Function.update_noteq hb]
      exact hbb b
  have hbound := findNextSetBit_bounds maxTicks _ hbb2 (s.Pstar + 1)
  refine ⟨⟨?_, hbb2⟩, ?_⟩ <;>
    · dsimp only [evictStep]
      omega

theorem evictLoop_spec (supply : ℤ) (maxTicks : ℕ) :
    ∀ fuel s s2, FrontierWf maxTicks s → evictLoop supply maxTicks fuel s = some s2 →
      FrontierWf maxTicks s2 ∧ s.Pstar ≤ s2.Pstar ∧ s2.Vstar ≤ supply := by
  intro fuel
  induction fuel with
  | zero =>
    intro s s2 hwf heq
    rw [evictLoop] at heq
    by_cases hc : s.Vstar ≤ supply
    · rw [if_pos hc] at heq
      cases heq
      exact ⟨hwf, le_refl _, hc⟩
    · rw [if_neg hc] at heq
      cases heq
  | succ fuel ih =>
    intro s s2 hwf heq
    rw [evictLoop] at heq
    by_cases hc : s.Vstar ≤ supply
    · rw [if_pos hc] at heq
      cases heq
      exact ⟨hwf, le_refl _, hc⟩
    · rw [if_neg hc] at heq
      obtain ⟨hwf2, hmono⟩ := evictStep_wf maxTicks s hwf
      obtain ⟨h1, h2, h3⟩ := ih (evictStep maxTicks s) s2 hwf2 heq
      exact ⟨h1, le_trans hmono h2, h3⟩

theorem bid_spec (supply : ℤ) (maxTicks fuel tick : ℕ) (amount : ℤ)
    (s s2 : FrontierState) (hwf : FrontierWf maxTicks s)
    (hbid : bid supply maxTicks fuel s tick amount = some s2) :
    FrontierWf maxTicks s2 ∧ s.Pstar ≤ s2.Pstar ∧ s2.Vstar ≤ supply := by
  obtain ⟨hP, hbb⟩ := hwf
  rw [bid] at hbid
  refine evictLoop_spec supply maxTicks fuel
    { volume := Function.update s.volume tick (s.volume tick + amount)
      blockBits :=
        if s.blockBits (tick >>> 8) = s.blockBits (tick >>> 8) ||| 1 <<< (tick &&& 255)
        then s.blockBits
        else Function.update s.blockBits (tick >>> 8)
          (s.blockBits (tick >>> 8) ||| 1 <<< (tick &&& 255))
      Pstar := s.Pstar
      Vstar := s.Vstar + amount } s2 ⟨hP, ?_⟩ hbid
  intro b
  dsimp only
  by_cases hm : s.blockBits (tick >>> 8) =
      s.blockBits (tick >>> 8) ||| (1 <<< (tick &&& 255))
  · rw [if_pos hm]
    exact hbb b
  · rw [if_neg hm]
    by_cases hb : b = tick >>> 8
    · rw [hb, Function.update_same]
      refine Nat.or_lt_two_pow (hbb _) ?_
      rw [Nat.shiftLeft_eq, one_mul]
      have : tick &&& 255 < 256 := by
        rw [show (255 : ℕ) = 2 ^ 8 - 1 by norm_num, Nat.and_pow_two_sub_one_eq_mod]
        have := Nat.mod_lt tick (show 0 < 2 ^ 8 by norm_num)
        omega
      exact Nat.pow_lt_pow_right (by norm_num) (by omega)
    · rw [Function.update_noteq hb]
      exact hbb b

theorem reach_wf (supply : ℤ) (maxTicks : ℕ) (s : FrontierState)
    (h : Reach supply maxTicks s) : FrontierWf maxTicks s := by
  induction h with
  | init =>
    exact ⟨Nat.zero_le _, fun b => by norm_num [initFrontier]⟩
  | bid s s2 fuel tick amount _ hbid ih =>
    exact (bid_spec supply maxTicks fuel tick amount s s2 ih hbid).1

/-- C4: across any sequence of `bid` calls from a fresh auction, `Pstar`
never decreases, and whenever a `bid` call returns, `Vstar ≤ SALE_SUPPLY`. -/
theorem pstarMonotoneVstarBounded (maxTicks fuel tick : ℕ) (amount : ℤ)
    (s s2 : FrontierState) (hreach : Reach SALE_SUPPLY maxTicks s)
    (hbid : bid SALE_SUPPLY maxTicks fuel s tick amount = some s2) :
    s.Pstar ≤ s2.Pstar ∧ s2.Vstar ≤ SALE_SUPPLY := by
  obtain ⟨-, h2, h3⟩ :=
    bid_spec SALE_SUPPLY maxTicks fuel tick amount s s2
      (reach_wf SALE_SUPPLY maxTicks s hreach) hbid
  exact ⟨h2, h3⟩

theorem pstarMonotoneVstarBounded_witness :
    bid SALE_SUPPLY 10000 1 initFrontier 3 7 = some frontierAfterSmallBid ∧
    (initFrontier.Pstar ≤ frontierAfterSmallBid.Pstar ∧
      frontierAfterSmallBid.Vstar ≤ SALE_SUPPLY) :=
  ⟨rfl, pstarMonotoneVstarBounded 10000 1 3 7 initFrontier frontierAfterSmallBid
    Reach.init rfl⟩

theorem findNextSetBitGo_out (maxTicks : ℕ) (bb : ℕ → ℕ) (blockIndex : ℕ)
    (h : ¬ blockIndex < maxTicks >>> 8) :
    ∀ fuel tickInBlock, findNextSetBitGo maxTicks bb fuel blockIndex tickInBlock = maxTicks := by
  intro fuel tickInBlock
  cases fuel with
  | zero => rfl
  | succ fuel => rw [findNextSetBitGo, if_neg h]

/-- A state whose `Vstar` stays above the supply while `evictStep` fixes its
observable fields makes the eviction loop run out of any fuel. -/
theorem evictLoop_none_of_stuck (supply : ℤ) (maxTicks : ℕ) (P : FrontierState → Prop)
    (hP : ∀ t, P t → ¬ t.Vstar ≤ supply ∧ P (evictStep maxTicks t)) :
    ∀ fuel t, P t → evictLoop supply maxTicks fuel t = none := by
  intro fuel
  induction fuel with
  | zero =>
    intro t ht
    rw [evictLoop, if_neg (hP t ht).1]
  | succ fuel ih =>
    intro t ht
    rw [evictLoop, if_neg (hP t ht).1]
    exact ih (evictStep maxTicks t) (hP t ht).2

/-- C5 (code bug): `findNextSetBit` scans blocks only while
`blockIndex < maxTicks >> 8`, so with `maxTicks = 10000` the ticks
`9984..9999` of the final partial block are invisible to the scan; once
`Vstar` exceeds the supply on volume held there, the frontier jumps to the
`maxTicks` sentinel without removing any volume and the eviction loop spins
forever: the first bid returns, the second never does, whatever the fuel. -/
theorem bidNonTermination :
    bid SALE_SUPPLY 10000 0 initFrontier 9990 600 = some frontierAfterFirstBid ∧
    ∀ fuel, bid SALE_SUPPLY 10000 fuel frontierAfterFirstBid 9991 600 = none := by
  constructor
  · rfl
  · intro fuel
    have hunfold : bid SALE_SUPPLY 10000 fuel frontierAfterFirstBid 9991 600 =
        evictLoop SALE_SUPPLY 10000 fuel preStuck := rfl
    rw [hunfold]
    cases fuel with
    | zero => rfl
    | succ fuel =>
      rw [evictLoop, if_neg (show ¬ preStuck.Vstar ≤ SALE_SUPPLY by decide)]
      refine evictLoop_none_of_stuck SALE_SUPPLY 10000
        (fun t => t.Vstar = 1200 ∧ t.Pstar = 10000 ∧ t.volume 10000 = 0) ?_ fuel _
        ⟨by decide, by decide, by decide⟩
      rintro t ⟨hV, hP, hv⟩
      refine ⟨by rw [hV]; decide, ?_, ?_, ?_⟩
      · show t.Vstar - t.volume t.Pstar = 1200
        rw [hP, hv, hV]
        ring
      · show findNextSetBit 10000 _ (t.Pstar + 1) = 10000
        rw [hP, findNextSetBit]
        exact findNextSetBitGo_out 10000 _ _ (by decide) _ _
      · show Function.update t.volume t.Pstar 0 10000 = 0
        rw [hP]
        exact Function.update_same _ _ _

/-- C6: with the sale supply set to 100 (the scenario pins `SALE_SUPPLY`,
which the source keeps as a configurable example constant), a fresh auction
given `bid(10, 60)` then `bid(20, 60)` ends its second bid with
`Vstar ≤ 100` and `Pstar` advanced past tick 10. -/
theorem frontierScenarioSupply100 :
    ((bid 100 10000 5 initFrontier 10 60).bind fun s1 => bid 100 10000 5 s1 20 60).map
      (fun s2 => (decide (s2.Vstar ≤ 100), decide (10 < s2.Pstar))) = some (true, true) := by
  decide

/-- C3 fails on the code: `bid` accepts a tick below the current frontier
and adds its amount to `Vstar` without re-checking the frontier.  With the
fixed supply 1000 and `maxTicks = 256`, `bid(10, 1001)` evicts everything
and parks `Pstar` at the sentinel 256; the following `bid(5, 50)` returns
with `Vstar = 50` while no volume at all sits at ticks `≥ Pstar`. -/
theorem frontierInvariantViolation :
    ((bid SALE_SUPPLY 256 5 initFrontier 10 1001).bind
        fun s1 => bid SALE_SUPPLY 256 5 s1 5 50).map
      (fun s2 => (s2.Pstar, s2.Vstar, decide (s2.Vstar = volumeAboveFrontier 256 s2))) =
      some (256, 50, false) := by
  decide

end TreeViz

